import Mathlib

set_option maxHeartbeats 1000000

/-!
Verification development for the `cas` content-addressable storage repository.

The Go source is shallowly embedded: byte streams become `List Char` (every byte of
interest is an ASCII character; arbitrary stream bytes are modelled as characters),
fallible operations return `Except Err`, and external effects (syscalls, the
memoization index, file handles) are modelled by explicit outcome parameters, one
per call site, so that every control-flow path of the source is represented.
-/

/-- Bytes of a stream or file, modelled as a list of characters. -/
abbrev Bytes := List Char

deriving instance DecidableEq for Except

/-- Error kinds surfaced by the embedded operations.  The Go code wraps some of
these with `fmt.Errorf` context strings; wrapping preserves the kind, so the
model tracks kinds only.  Each constructor corresponds to one failure source:
`notSchema` is `ErrNotSchema`, `tooLarge` is the "schema object is too large"
error, `unsupportedType` is the "unsupported schema type" error, `parseErr` is a
JSON syntax/decoding error, and the remaining kinds name the individual failing
calls inside `Commit`, `tmpFile` and `HashWith`. -/
inductive Err
  | notSchema
  | tooLarge
  | unsupportedType
  | parseErr
  | closed
  | saveRef
  | fchmod
  | linkExist
  | linkOther
  | addIndex
  | closeFail
  | statErr
  | openFail
  | readFail
deriving DecidableEq

namespace Types

/-- Lowercase hexadecimal digit test.  Modelled from the spec: `types.Ref` (the
`types` package is not under `src/`) has a "canonical lowercase fixed-length
encoding" used as filenames and JSON values. -/
def isHexLower (c : Char) : Bool :=
  (48 ≤ c.toNat && c.toNat ≤ 57) || (97 ≤ c.toNat && c.toNat ≤ 102)

/-- Modelled from the spec: `types.Ref` is an immutable content-hash digest.
Refs "are produced only by finalizing a hash computation or by decoding an
encoding", so every value of the type carries the canonical-encoding invariant. -/
abbrev Ref := { l : Bytes // l.all isHexLower = true }

/-- `Ref.String()`: the canonical encoding, used as the blob's filename. -/
def Ref.string (r : Ref) : Bytes := r.val

/-- Modelled from the spec: `Ref.Zero()` is true iff the ref equals the
distinguished uninitialized value, modelled as the empty digest. -/
def Ref.zero (r : Ref) : Bool := r.val.isEmpty

/-- `types.SizedRef`: a ref paired with the byte length of the blob. -/
structure SizedRef where
  ref : Ref
  size : Nat
deriving DecidableEq

end Types

namespace Schema

/-- Source constant `typeField = "@type"`. -/
def typeField : Bytes := "@type".toList

/-- Source constant `casNS = "cas:"`. -/
def casNS : Bytes := "cas:".toList

/-- Source constant `tab = " "` (a single space, despite the name). -/
def tab : Bytes := " ".toList

/-- Source constant `magic = "{\n" + tab + "\"" + typeField + "\":"`. -/
def magic : Bytes :=
  "\x7b\n".toList ++ tab ++ "\"".toList ++ typeField ++ "\":".toList

/-- Source constant `maxSize = 16 * 1024 * 1024`. -/
def maxSize : Nat := 16 * 1024 * 1024

/-- Source constant `MagicSize = len(magic)`. -/
def MagicSize : Nat := magic.length

/-- `IsSchema` (source): a fixed-size memory compare of the first `MagicSize`
bytes against `magic`; buffers shorter than `MagicSize` are rejected. -/
def IsSchema (p : Bytes) : Bool :=
  if p.length < MagicSize then false
  else decide (p.take MagicSize = magic)

/-- `checkSchema` (source): read exactly `MagicSize` bytes (`io.ReadFull`); a
clean or truncated EOF maps to `ErrNotSchema`, as does a magic mismatch; on
success the consumed bytes are replayed in front of the rest
(`io.MultiReader(bytes.NewReader(m), r)`), i.e. the full stream is returned. -/
def checkSchema (r : Bytes) : Except Err Bytes :=
  if r.length < MagicSize then .error .notSchema
  else if IsSchema (r.take MagicSize) then .ok r
  else .error .notSchema

end Schema

namespace LocalStorage

/-- The blob directory: a list of (name, content) entries, one per directory
entry, newest first.  `linkat` refuses to create a second entry with an
existing name. -/
abbrev BlobDir := List (Bytes × Bytes)

/-- Outcomes of the external calls made by `(*linuxTmpFile).Commit`, one flag
per call site; `true` means that call fails. -/
structure CommitEnv where
  /-- `f.f == nil`: the staged handle was already closed. -/
  closed : Bool
  /-- `SaveRefFile` (the identity-memoization write) fails. -/
  saveRefFails : Bool
  /-- `unix.Fchmod(fd, roPerm)` fails. -/
  fchmodFails : Bool
  /-- `unix.Linkat` fails with an error other than `EEXIST`. -/
  linkFails : Bool
  /-- `s.addNotIndexed` fails. -/
  addIndexFails : Bool
  /-- the final `tmp.Close()` fails. -/
  closeFails : Bool
deriving DecidableEq

/-- `linkFile` (source): link the anonymous temp file under `name` inside the
blob directory; `EEXIST` is normalized to `os.ErrExist` (here `.linkExist`). -/
def linkFile (dir : BlobDir) (name : Bytes) (content : Bytes) (ioFail : Bool) :
    Except Err BlobDir :=
  if dir.any (fun e => decide (e.1 = name)) then .error .linkExist
  else if ioFail then .error .linkOther
  else .ok ((name, content) :: dir)

/-- `(*linuxTmpFile).Commit` (source): save the memoization entry, chmod the
staged file read-only, publish it via `linkFile` under `ref.String()` treating
"already exists" as success, then record it as not-indexed and close.  Returns
the commit result together with the blob directory afterwards. -/
def Commit (env : CommitEnv) (s : BlobDir) (content : Bytes) (ref : Types.Ref) :
    Except Err Unit × BlobDir :=
  if env.closed then (.error .closed, s)
  else if env.saveRefFails then (.error .saveRef, s)
  else if env.fchmodFails then (.error .fchmod, s)
  else
    match linkFile s ref.string content env.linkFails with
    | .error .linkExist => (.ok (), s)
    | .error e => (.error e, s)
    | .ok s' =>
      if env.addIndexFails then (.error .addIndex, s')
      else if env.closeFails then (.error .closeFail, s')
      else (.ok (), s')

/-- Number of blob-directory entries carrying a given name. -/
def countName (s : BlobDir) (name : Bytes) : Nat :=
  s.countP (fun e => decide (e.1 = name))

/-- Outcome of the `unix.Open(s.dir, O_TMPFILE|..., 0600)` call inside
`tmpFile`: success, `EISDIR`, `EOPNOTSUPP`, or any other error. -/
inductive OpenRes
  | ok
  | eisdir
  | eopnotsupp
  | fail
deriving DecidableEq

/-- Which staging strategy a `tmpFile` call produced (or that it failed). -/
inductive Strategy
  | anonymous
  | fallback
  | failed
deriving DecidableEq

/-- Record of one `tmpFile` call: the strategy it returned and whether it
attempted the anonymous `O_TMPFILE` open at all. -/
structure TmpCall where
  strat : Strategy
  attempted : Bool
deriving DecidableEq

/-- `(*Storage).tmpFile` (source), as a transition on the process-wide
`noTmpFile` flag: if the flag is set, use the fallback (`tmpFileGen`) without
attempting the anonymous open; otherwise attempt it, permanently setting the
flag on `EISDIR` (the "system doesn't understand this flag" condition, which
falls through to the fallback), using the fallback without setting the flag on
`EOPNOTSUPP`, and failing on any other error. -/
def tmpFile (noTmp : Bool) (res : OpenRes) : Bool × TmpCall :=
  if noTmp then (noTmp, ⟨.fallback, false⟩)
  else
    match res with
    | .ok => (noTmp, ⟨.anonymous, true⟩)
    | .eisdir => (true, ⟨.fallback, true⟩)
    | .eopnotsupp => (noTmp, ⟨.fallback, true⟩)
    | .fail => (noTmp, ⟨.failed, true⟩)

/-- A sequence of `tmpFile` calls threading the `noTmpFile` flag: with atomic
load/store semantics every call observes the current flag value, so any
interleaving of concurrent callers is some such sequence. -/
def runTmpFile : Bool → List OpenRes → Bool × List TmpCall
  | flag, [] => (flag, [])
  | flag, r :: rs =>
    let step := tmpFile flag r
    let rest := runTmpFile step.1 rs
    (rest.1, step.2 :: rest.2)

end LocalStorage

namespace Cas

/-- Outcomes of the external calls made by `HashWith`, one per call site. -/
structure HashEnv where
  /-- `os.Open(path)` fails. -/
  openFails : Bool
  /-- Result of `StatFile` (the identity-memoization lookup). -/
  statRes : Except Err Types.SizedRef
  /-- `io.Copy(h, f)` (reading and hashing the file) fails. -/
  readFails : Bool
  /-- `SaveRefFile` (recording the memoization entry) fails; the source only
  logs this error. -/
  saveRefFails : Bool

/-- The tail of `HashWith` after the stat fast path: hash the content and
return the sized ref; a `SaveRefFile` failure is logged and swallowed, so
`env.saveRefFails` does not influence the result. -/
def hashRest (env : HashEnv) (hash : Bytes → Types.Ref) (content : Bytes) :
    Except Err Types.SizedRef :=
  if env.readFails then .error .readFail
  else .ok ⟨hash content, content.length⟩

/-- `HashWith` (source): open the file, consult the memoization index unless
`force` is set (a hit requires a nil error and a non-zero ref), otherwise
stream-hash the content and return `SizedRef{Ref: hash, Size: n}`. -/
def HashWith (env : HashEnv) (hash : Bytes → Types.Ref) (content : Bytes)
    (force : Bool) : Except Err Types.SizedRef :=
  if env.openFails then .error .openFail
  else
    match force, env.statRes with
    | false, .ok sr => if !sr.ref.zero then .ok sr else hashRest env hash content
    | false, .error _ => hashRest env hash content
    | true, _ => hashRest env hash content

/-- A stat result that misses: either `StatFile` returned an error or the
memoized ref is zero. -/
def statMiss : Except Err Types.SizedRef → Bool
  | .error _ => true
  | .ok sr => sr.ref.zero

end Cas

namespace Schema

/-- Schema objects of the embedded type registry.  `transformOp` is
`schema.TransformOp` from `src/schema/pipeline.go` (fields `src`/`op`/`dst`
with those JSON tags).  `pin` is modelled from the spec: `types.Pin` (not under
`src/`) is the garbage-collection-root marker whose wire form the spec's
scenario shows as `{"@type":"cas:Pin","id":"x"}`, i.e. a single string field
`id`.  The source registry also registers `types.SizedRef` and
`types.SchemaRef`, whose concrete shapes are not under `src/` and are not
needed by any claim, so the embedding omits them. -/
inductive Object
  | transformOp (src op dst : Types.Ref)
  | pin (id : Bytes)
deriving DecidableEq

/-- The registered concrete shapes (`reflect.Type`s of the registry). -/
inductive ObjShape
  | transformOp
  | pin
deriving DecidableEq

/-- `typesMap`: name-to-shape direction of the registry, as populated by the
`init` calls to `registerCAS` (namespaced as `casNS + type name`). -/
def typesMap (name : Bytes) : Option ObjShape :=
  if name = "cas:TransformOp".toList then some .transformOp
  else if name = "cas:Pin".toList then some .pin
  else none

/-- `typeToName`: shape-to-name direction of the registry. -/
def typeToName : Object → Bytes
  | .transformOp _ _ _ => "cas:TransformOp".toList
  | .pin _ => "cas:Pin".toList

/-- `TypeOf` (source): registry lookup by shape.  Every variant of the embedded
`Object` type is registered, so the "unsupported schema type" error path is
unreachable here. -/
def TypeOf (o : Object) : Bytes := typeToName o

/-- `NewType` (source): look up the registered shape for a type name;
unknown names yield the "unsupported schema type" error. -/
def NewType (typ : Bytes) : Except Err ObjShape :=
  match typesMap typ with
  | some s => .ok s
  | none => .error .unsupportedType

/-- Lowercase hex digit for `\u00XX` escapes (mirrors `encoding/json`). -/
def hexDigit (n : Nat) : Char :=
  if n < 10 then Char.ofNat ('0'.toNat + n) else Char.ofNat ('a'.toNat + (n - 10))

/-- JSON escaping of one character as performed by `encoding/json` with
`SetEscapeHTML(false)`: quote, backslash, `\n`, `\r`, `\t`, `\u00XX` for the
remaining control characters, ` `/` `, and everything else verbatim. -/
def escChar (c : Char) : Bytes :=
  if c = '"' then ['\\', '"']
  else if c = '\\' then ['\\', '\\']
  else if c = '\n' then ['\\', 'n']
  else if c = '\r' then ['\\', 'r']
  else if c = '\t' then ['\\', 't']
  else if c.toNat < 32 then
    ['\\', 'u', '0', '0', hexDigit (c.toNat / 16), hexDigit (c.toNat % 16)]
  else if c.toNat = 0x2028 || c.toNat = 0x2029 then
    ['\\', 'u', '2', '0', '2', hexDigit (c.toNat % 16)]
  else [c]

/-- JSON escaping of a string body. -/
def escape (s : Bytes) : Bytes := s.flatMap escChar

/-- One pretty-printed member, `"key": "value"` (all field values of the
embedded shapes are JSON strings: refs marshal as their canonical encoding). -/
def renderField (kv : Bytes × Bytes) : Bytes :=
  '"' :: escape kv.1 ++ '"' :: ':' :: ' ' :: '"' :: escape kv.2 ++ ['"']

/-- Members joined by `,\n ` — the separator `json.Encoder` produces with
`SetIndent("", tab)` at nesting depth one. -/
def sepJoin : List (Bytes × Bytes) → Bytes
  | [] => []
  | [kv] => renderField kv
  | kv :: rest => renderField kv ++ ',' :: '\n' :: ' ' :: sepJoin rest

/-- `json.Encoder.Encode` output for a flat struct with `SetIndent("", tab)`
and `SetEscapeHTML(false)`: the indented object followed by a newline. -/
def jsonEncode (flds : List (Bytes × Bytes)) : Bytes :=
  match flds with
  | [] => ['\x7b', '\x7d', '\n']
  | _ => '\x7b' :: '\n' :: ' ' :: sepJoin flds ++ '\n' :: '\x7d' :: '\n' :: []

/-- The JSON members `json.Marshal` produces for each embedded object, in
struct-field order. -/
def marshalFields : Object → List (Bytes × Bytes)
  | .transformOp src op dst =>
    [("src".toList, src.val), ("op".toList, op.val), ("dst".toList, dst.val)]
  | .pin id => [("id".toList, id)]

/-- In-place byte overwrite, `p[i] = c`. -/
def setNth : Bytes → Nat → Char → Bytes
  | [], _, _ => []
  | _ :: t, 0, c => c :: t
  | h :: t, n + 1, c => h :: setNth t n c

/-- `Encode` (source): write `magic + ` `"` + typ + `"`, remember the offset
`i = buf.Len()`, append the `json.Encoder` output for the object, and overwrite
the byte at `i` (the `{` opening the encoder's object) with `,`. -/
def Encode (o : Object) : Bytes :=
  let pre := magic ++ ' ' :: '"' :: TypeOf o ++ ['"']
  let body := jsonEncode (marshalFields o)
  setNth (pre ++ body) pre.length ','

/-- JSON whitespace. -/
def isWS (c : Char) : Bool :=
  match c with
  | ' ' | '\t' | '\n' | '\r' => true
  | _ => false

/-- Skip JSON whitespace. -/
def skipWS (s : Bytes) : Bytes := s.dropWhile isWS

/-- Numeric value of one hex digit. -/
def hexVal (c : Char) : Option Nat :=
  match c.toNat with
  | n =>
    if 48 ≤ n && n ≤ 57 then some (n - 48)
    else if 97 ≤ n && n ≤ 102 then some (n - 87)
    else if 65 ≤ n && n ≤ 70 then some (n - 55)
    else none

/-- Single-character JSON escapes accepted by `encoding/json`. -/
def unescChar (c : Char) : Option Char :=
  if c = '"' then some '"'
  else if c = '\\' then some '\\'
  else if c = '/' then some '/'
  else if c = 'n' then some '\n'
  else if c = 'r' then some '\r'
  else if c = 't' then some '\t'
  else if c = 'b' then some (Char.ofNat 8)
  else if c = 'f' then some (Char.ofNat 12)
  else none

/-- JSON string-literal body parser (the opening quote is already consumed):
returns the unescaped content and the bytes after the closing quote.  Raw
control characters are rejected, escapes are decoded (a `\uXXXX` escape
denoting an invalid scalar value is out of scope for the embedded subset). -/
def parseQuoted : Bytes → Option (Bytes × Bytes)
  | [] => none
  | '"' :: rest => some ([], rest)
  | '\\' :: 'u' :: a :: b :: c2 :: d :: rest =>
    match hexVal a, hexVal b, hexVal c2, hexVal d with
    | some x, some y, some z, some w =>
      (parseQuoted rest).map
        (fun p => (Char.ofNat (((x * 16 + y) * 16 + z) * 16 + w) :: p.1, p.2))
    | _, _, _, _ => none
  | '\\' :: e :: rest =>
    match unescChar e with
    | some c' => (parseQuoted rest).map (fun p => (c' :: p.1, p.2))
    | none => none
  | c :: rest =>
    if c.toNat < 32 then none
    else (parseQuoted rest).map (fun p => (c :: p.1, p.2))

/-- Member-list parser for a JSON object whose values are strings — the
grammar subset `encoding/json` sees on every blob the embedded shapes produce.
Called after the opening `{` with at least one member present; consumes through
the closing `}`.  Fuel decreases on every member; callers pass at least the
input length plus one, which bounds the member count. -/
def parseFields : Nat → Bytes → Option (List (Bytes × Bytes) × Bytes)
  | 0, _ => none
  | fuel + 1, s =>
    match skipWS s with
    | '"' :: r =>
      match parseQuoted r with
      | some (key, r1) =>
        match skipWS r1 with
        | ':' :: r2 =>
          match skipWS r2 with
          | '"' :: r3 =>
            match parseQuoted r3 with
            | some (v, r4) =>
              match skipWS r4 with
              | ',' :: r5 =>
                match parseFields fuel r5 with
                | some (flds, r6) => some ((key, v) :: flds, r6)
                | none => none
              | '\x7d' :: r5 => some ([(key, v)], r5)
              | _ => none
            | none => none
          | _ => none
        | _ => none
      | none => none
    | _ => none

/-- Top-level parse of one JSON object (`{}` or a member list). -/
def parseTopObj (data : Bytes) : Option (List (Bytes × Bytes) × Bytes) :=
  match skipWS data with
  | '\x7b' :: r =>
    match skipWS r with
    | '\x7d' :: r2 => some ([], r2)
    | _ => parseFields (data.length + 1) r
  | _ => none

/-- `json.Unmarshal(data, ...)`: parse the entire buffer as one JSON object
(anything but trailing whitespace after it is an error). -/
def unmarshalFields (data : Bytes) : Except Err (List (Bytes × Bytes)) :=
  match parseTopObj data with
  | some (flds, rest) => if skipWS rest = [] then .ok flds else .error .parseErr
  | none => .error .parseErr

/-- Last-wins member lookup, matching `encoding/json`'s overwrite behaviour on
duplicate keys. -/
def lookupLast (flds : List (Bytes × Bytes)) (key : Bytes) : Option Bytes :=
  flds.foldl (fun acc kv => if kv.1 = key then some kv.2 else acc) none

/-- Ref decoding from its JSON text.  Modelled from the spec: refs are
"produced only by finalizing a hash computation or by decoding an encoding",
and only the canonical lowercase encoding is valid. -/
def refOfText (s : Bytes) : Except Err Types.Ref :=
  if h : s.all Types.isHexLower = true then .ok ⟨s, h⟩ else .error .parseErr

/-- `json.Unmarshal(data, obj)` for a freshly allocated value of a registered
shape: fill each tagged field from the members (absent members leave the zero
value; unknown members such as `@type` are ignored). -/
def objFromFields : ObjShape → List (Bytes × Bytes) → Except Err Object
  | .transformOp, flds =>
    match refOfText ((lookupLast flds "src".toList).getD []),
        refOfText ((lookupLast flds "op".toList).getD []),
        refOfText ((lookupLast flds "dst".toList).getD []) with
    | .ok src, .ok op, .ok dst => .ok (.transformOp src op dst)
    | .error e, _, _ => .error e
    | _, .error e, _ => .error e
    | _, _, .error e => .error e
  | .pin, flds => .ok (.pin ((lookupLast flds "id".toList).getD []))

/-- `decodeType` (source): drain the stream through
`io.LimitReader(r, maxSize)`; a full `maxSize` read is the "schema object is
too large" error; otherwise extract the `@type` header by a full JSON parse.
Returns the result (type name and the drained bytes — Go returns `nil` data on
error) together with the bytes left unread beyond the limit. -/
def decodeType (r : Bytes) : Except Err (Bytes × Bytes) × Bytes :=
  if (r.take maxSize).length = maxSize then (.error .tooLarge, r.drop maxSize)
  else
    match unmarshalFields (r.take maxSize) with
    | .error e => (.error e, r.drop maxSize)
    | .ok flds =>
      (.ok ((lookupLast flds typeField).getD [], r.take maxSize), r.drop maxSize)

/-- `decode` (source): extract the type, allocate the registered shape, and
unmarshal the complete body into it. -/
def decode (r : Bytes) : Except Err Object :=
  match (decodeType r).1 with
  | .error e => .error e
  | .ok (typ, data) =>
    match NewType typ with
    | .error e => .error e
    | .ok shape =>
      match unmarshalFields data with
      | .error e => .error e
      | .ok flds => objFromFields shape flds

/-- `DecodeJSON` (source): `decode` with its error wrapped in a
"cannot decode schema object" context; wrapping preserves the error kind. -/
def DecodeJSON (r : Bytes) : Except Err Object := decode r

/-- `Decode` (source): verify the magic via `checkSchema`, then `DecodeJSON`
on the restored stream. -/
def Decode (r : Bytes) : Except Err Object :=
  match checkSchema r with
  | .error e => .error e
  | .ok r' => DecodeJSON r'

/-- `DecodeType` (source): verify the magic, then extract only the type name. -/
def DecodeType (r : Bytes) : Except Err Bytes :=
  match checkSchema r with
  | .error e => .error e
  | .ok r' =>
    match (decodeType r').1 with
    | .error e => .error e
    | .ok (typ, _) => .ok typ

/-- Result of `PeekType`: the replacement reader (`none` models the nil reader
Go returns when `checkSchema` fails), the type name, and the error. -/
structure PeekResult where
  reader : Option Bytes
  typ : Bytes
  err : Option Err
deriving DecidableEq

/-- `PeekType` (source): `checkSchema`, then `decodeType`; the replacement
reader replays the drained `data` (nil on a `decodeType` error) in front of
whatever the limit reader left unconsumed. -/
def PeekType (r : Bytes) : PeekResult :=
  match checkSchema r with
  | .error e => ⟨none, [], some e⟩
  | .ok r1 =>
    match decodeType r1 with
    | (.error e, left) => ⟨some ([] ++ left), [], some e⟩
    | (.ok (typ, data), left) => ⟨some (data ++ left), typ, none⟩

end Schema

open Types Schema LocalStorage Cas

/-! ### Sample values used by witnesses and counterexamples -/

/-- A sample canonical ref. -/
def refA : Types.Ref := ⟨"ab01".toList, by decide⟩

/-- A second sample canonical ref. -/
def refB : Types.Ref := ⟨"cd".toList, by decide⟩

/-- A third sample canonical ref. -/
def refC : Types.Ref := ⟨"0f".toList, by decide⟩

/-- A small pin object. -/
def pinX : Schema.Object := .pin ['x']

/-- A pin whose `id` alone reaches the 16 MiB object-size cap. -/
def bigPin : Schema.Object := .pin (List.replicate Schema.maxSize 'a')

/-- The spec's scenario stream: valid JSON for a pin, but without the
indentation-exact magic prefix. -/
def pinJSONCompact : Bytes := "\x7b\"@type\":\"cas:Pin\",\"id\":\"x\"\x7d".toList

/-- A stream that passes the magic check but whose body is not valid JSON. -/
def badBody : Bytes := Schema.magic ++ "xyz".toList

/-! ### Claim theorems -/

/-- C6: `IsSchema p` is true iff `p` has at least `MagicSize` bytes and its
first `MagicSize` bytes equal the magic template byte for byte; in particular
every `p` shorter than `MagicSize` yields `false`. -/
theorem isSchema_spec (p : Bytes) :
    (IsSchema p = true ↔ MagicSize ≤ p.length ∧ p.take MagicSize = magic) ∧
    (p.length < MagicSize → IsSchema p = false) := by
  unfold IsSchema
  constructor
  · split_ifs with h
    · simp only [Bool.false_eq_true, false_iff, not_and]
      intro h1
      omega
    · simp only [decide_eq_true_eq]
      constructor
      · intro h1
        exact ⟨Nat.not_lt.1 h, h1⟩
      · intro h1
        exact h1.2
  · intro h
    simp [h]

/-- Witness for C6 at a concrete short input. -/
theorem isSchema_spec_witness : IsSchema [] = false :=
  (isSchema_spec []).2 (by decide)

/-- Helper: a stream that is too short or fails the byte compare makes
`checkSchema` return `ErrNotSchema`. -/
theorem checkSchema_bad_magic (r : Bytes)
    (h : r.length < MagicSize ∨ r.take MagicSize ≠ magic) :
    checkSchema r = .error .notSchema := by
  unfold checkSchema
  rcases h with h | h
  · simp [h]
  · rcases Nat.lt_or_ge r.length MagicSize with h1 | h1
    · simp [h1]
    · have h2 : IsSchema (r.take MagicSize) = false := by
        unfold IsSchema
        rw [if_neg]
        · simp only [decide_eq_false_iff_not]
          rwa [List.take_take, Nat.min_self]
        · rw [List.length_take]
          omega
      simp [Nat.not_lt.2 h1, h2]

/-- Helper: a stream that passes the magic check makes `checkSchema` return
the full stream. -/
theorem checkSchema_good (r : Bytes) (h : r.take MagicSize = magic)
    (hl : MagicSize ≤ r.length) : checkSchema r = .ok r := by
  have h2 : IsSchema (r.take MagicSize) = true := by
    unfold IsSchema
    rw [if_neg]
    · simp only [decide_eq_true_eq]
      rwa [List.take_take, Nat.min_self]
    · rw [List.length_take]
      omega
  unfold checkSchema
  simp [Nat.not_lt.2 hl, h2]

/-- C7: any stream that is too short for the magic or whose first `MagicSize`
bytes differ from the magic template makes `Decode` and `DecodeType` fail with
the `NotSchema` error — never a generic I/O or parse error. -/
theorem decode_bad_magic_notSchema (r : Bytes)
    (h : r.length < MagicSize ∨ r.take MagicSize ≠ magic) :
    Decode r = .error .notSchema ∧ DecodeType r = .error .notSchema := by
  have hcs := checkSchema_bad_magic r h
  constructor
  · unfold Decode
    rw [hcs]
  · unfold DecodeType
    rw [hcs]

/-- Witness for C7: the spec's scenario stream — valid JSON carrying
`@type cas:Pin` but lacking the exact magic bytes — decodes to `NotSchema`. -/
theorem decode_bad_magic_notSchema_witness :
    Decode pinJSONCompact = .error .notSchema ∧
    DecodeType pinJSONCompact = .error .notSchema :=
  decode_bad_magic_notSchema pinJSONCompact (Or.inr (by decide))

/-- Helper: a stream that passes the magic check but reaches the 16 MiB cap
makes `Decode` fail with the "too large" error. -/
theorem decode_tooLarge_of_cap (r : Bytes)
    (hm : r.take MagicSize = magic) (hl : maxSize ≤ r.length) :
    Decode r = .error .tooLarge := by
  have hms : MagicSize ≤ r.length := by
    have h11 : MagicSize = 11 := by decide
    unfold maxSize at hl
    omega
  have hcs := checkSchema_good r hm hms
  have hdt : (decodeType r).1 = .error .tooLarge := by
    unfold decodeType
    have : (r.take maxSize).length = maxSize := by
      rw [List.length_take]
      omega
    simp [this]
  unfold Decode DecodeJSON decode
  rw [hcs]
  simp [hdt]

/-- C8: a stream that passes the magic check but reaches the 16 MiB cap fails
with the distinct "too large" error — not `NotSchema` and not a parse error. -/
theorem decode_over_cap_tooLarge (r : Bytes)
    (hm : r.take MagicSize = magic) (hl : maxSize ≤ r.length) :
    Decode r = .error .tooLarge :=
  decode_tooLarge_of_cap r hm hl

/-- Witness for C8: a stream with the magic followed by a 16 MiB body fails
with the "too large" error. -/
theorem decode_over_cap_tooLarge_witness :
    Decode (magic ++ List.replicate maxSize 'a') = .error .tooLarge := by
  apply decode_over_cap_tooLarge
  · have : MagicSize = magic.length := rfl
    rw [this, List.take_left]
  · rw [List.length_append, List.length_replicate]
    omega

/-- C9: once the anonymous strategy reports the specific "unsupported"
condition (`EISDIR`), the process-wide flag is set; with the flag set, every
`tmpFile` call returns the fallback strategy without attempting the anonymous
open, and no sequence of further calls ever resets the flag. -/
theorem tmpfile_unsupported_sticky :
    (∀ flag, (tmpFile flag .eisdir).1 = true) ∧
    (∀ res, tmpFile true res = (true, ⟨.fallback, false⟩)) ∧
    (∀ evs, (runTmpFile true evs).1 = true ∧
      ∀ c ∈ (runTmpFile true evs).2, c = ⟨.fallback, false⟩) := by
  refine ⟨?_, ?_, ?_⟩
  · intro flag
    cases flag <;> rfl
  · intro res
    rfl
  · intro evs
    induction evs with
    | nil => exact ⟨rfl, by simp [runTmpFile]⟩
    | cons r rs ih =>
      refine ⟨?_, ?_⟩
      · simpa [runTmpFile, tmpFile] using ih.1
      · intro c hc
        simp only [runTmpFile, tmpFile, if_pos rfl] at hc
        rcases List.mem_cons.1 hc with h | h
        · exact h
        · exact ih.2 c h

/-- Witness for C9's trace component at a concrete call sequence. -/
theorem tmpfile_unsupported_sticky_witness :
    (runTmpFile true [OpenRes.ok, OpenRes.eisdir]).1 = true ∧
    ∀ c ∈ (runTmpFile true [OpenRes.ok, OpenRes.eisdir]).2,
      c = ⟨Strategy.fallback, false⟩ :=
  tmpfile_unsupported_sticky.2.2 [OpenRes.ok, OpenRes.eisdir]

/-- C10: when open and read succeed and the memoization lookup misses,
`HashWith` returns a nil error and `SizedRef{Ref: hash(content), Size: n}`,
regardless of whether recording the memoization entry (`SaveRefFile`) fails —
that failure is only logged. -/
theorem hashwith_swallows_saveref (env : Cas.HashEnv) (hash : Bytes → Types.Ref)
    (content : Bytes) (force : Bool)
    (ho : env.openFails = false) (hr : env.readFails = false)
    (hs : statMiss env.statRes = true) :
    HashWith env hash content force = .ok ⟨hash content, content.length⟩ := by
  unfold HashWith hashRest
  rw [ho]
  simp only [if_false, Bool.false_eq_true]
  cases hf : force with
  | true => simp [hr]
  | false =>
    cases hst : env.statRes with
    | error e => simp [hr]
    | ok sr =>
      unfold statMiss at hs
      rw [hst] at hs
      simp only [] at hs
      simp [hs, hr]

/-- Witness for C10 with a failing `SaveRefFile`. -/
theorem hashwith_swallows_saveref_witness :
    HashWith ⟨false, .error .statErr, false, true⟩ (fun _ => refA) ['x', 'y'] false
      = .ok ⟨refA, 2⟩ :=
  hashwith_swallows_saveref ⟨false, .error .statErr, false, true⟩
    (fun _ => refA) ['x', 'y'] false rfl rfl (by decide)

/-- C1: starting from a blob directory without the canonical name, a first
successful commit stores the blob once, and a second commit of the same
content — whose link step hits "already exists" — reports success (nil error)
and leaves exactly one stored blob named `ref.String()`.  The second commit's
post-link flags are unconstrained because the exists branch returns first. -/
theorem commit_twice_dedup (env1 env2 : CommitEnv) (s0 : BlobDir) (c : Bytes)
    (ref : Types.Ref)
    (h0 : countName s0 ref.string = 0)
    (e1c : env1.closed = false) (e1s : env1.saveRefFails = false)
    (e1f : env1.fchmodFails = false) (e1l : env1.linkFails = false)
    (e1a : env1.addIndexFails = false) (e1cl : env1.closeFails = false)
    (e2c : env2.closed = false) (e2s : env2.saveRefFails = false)
    (e2f : env2.fchmodFails = false) :
    (Commit env1 s0 c ref).1 = .ok () ∧
    (Commit env2 (Commit env1 s0 c ref).2 c ref).1 = .ok () ∧
    countName (Commit env2 (Commit env1 s0 c ref).2 c ref).2 ref.string = 1 := by
  have hany0 : s0.any (fun e => decide (e.1 = ref.string)) = false := by
    rw [List.any_eq_false]
    intro x hx
    exact List.countP_eq_zero.1 h0 x hx
  have hC1 : Commit env1 s0 c ref = (.ok (), (ref.string, c) :: s0) := by
    simp [Commit, linkFile, e1c, e1s, e1f, e1l, e1a, e1cl, hany0]
  have hcount1 : countName ((ref.string, c) :: s0) ref.string = 1 := by
    unfold countName at h0 ⊢
    rw [List.countP_cons]
    simp [h0]
  have hany1 : ((ref.string, c) :: s0).any (fun e => decide (e.1 = ref.string))
      = true := by simp
  have hC2 : Commit env2 ((ref.string, c) :: s0) c ref
      = (.ok (), (ref.string, c) :: s0) := by
    simp [Commit, linkFile, e2c, e2s, e2f, hany1]
  refine ⟨by rw [hC1], ?_, ?_⟩
  · rw [hC1]
    show (Commit env2 ((ref.string, c) :: s0) c ref).1 = .ok ()
    rw [hC2]
  · rw [hC1]
    show countName (Commit env2 ((ref.string, c) :: s0) c ref).2 ref.string = 1
    rw [hC2]
    exact hcount1

/-- Witness for C1 at concrete inputs (the second env even has failing
post-link steps; they are never reached). -/
theorem commit_twice_dedup_witness :
    (Commit ⟨false, false, false, false, false, false⟩ [] ['x'] refA).1 = .ok () ∧
    (Commit ⟨false, false, false, true, true, true⟩
      (Commit ⟨false, false, false, false, false, false⟩ [] ['x'] refA).2
      ['x'] refA).1 = .ok () ∧
    countName (Commit ⟨false, false, false, true, true, true⟩
      (Commit ⟨false, false, false, false, false, false⟩ [] ['x'] refA).2
      ['x'] refA).2 refA.string = 1 :=
  commit_twice_dedup _ _ [] ['x'] refA (by decide) rfl rfl rfl rfl rfl rfl rfl
    rfl rfl

/-- C2 counterexample: all steps up to and including the link succeed, but the
post-publish `addNotIndexed` bookkeeping fails — `Commit` returns a non-nil
error while the content IS visible under the canonical name. -/
theorem commit_error_visible_cex :
    (Commit ⟨false, false, false, false, true, false⟩ [] ['x'] refA).1 ≠ .ok () ∧
    countName (Commit ⟨false, false, false, false, true, false⟩ [] ['x'] refA).2
      refA.string = 1 := by decide

/-- C2 amended: a `Commit` failure at or before the publish step (closed
handle, `SaveRefFile`, `Fchmod`, or a non-EEXIST link failure) leaves the blob
directory unchanged; only failures after a successful link (`addNotIndexed`,
the final close) return an error with the content already published. -/
theorem commit_prepublish_failure_unchanged (env : CommitEnv) (s : BlobDir)
    (c : Bytes) (ref : Types.Ref)
    (ha : env.addIndexFails = false) (hc : env.closeFails = false)
    (he : (Commit env s c ref).1 ≠ .ok ()) :
    (Commit env s c ref).2 = s := by
  unfold Commit at he ⊢
  rw [ha, hc] at he ⊢
  simp only [Bool.false_eq_true, if_false] at he ⊢
  split_ifs at he ⊢
  · rfl
  · rfl
  · rfl
  · cases hl : linkFile s ref.string c env.linkFails with
    | error e => cases e <;> simp
    | ok s' =>
      rw [hl] at he
      simp at he

/-- Witness for the amended C2: a failing `Fchmod` yields an error and an
unchanged (still empty) blob directory. -/
theorem commit_prepublish_failure_unchanged_witness :
    (Commit ⟨false, false, true, false, false, false⟩ [] ['x'] refA).1 ≠ .ok () ∧
    (Commit ⟨false, false, true, false, false, false⟩ [] ['x'] refA).2 = [] :=
  ⟨by decide,
    commit_prepublish_failure_unchanged ⟨false, false, true, false, false, false⟩
      [] ['x'] refA rfl rfl (by decide)⟩


/-! ### JSON string round-trip lemmas -/

/-- `hexVal` inverts `hexDigit` on nibble values. -/
theorem hexVal_hexDigit : ∀ n < 16, hexVal (hexDigit n) = some n := by decide

/-- `escChar` on a character needing no escape. -/
theorem escChar_plain (c : Char) (h32 : ¬c.toNat < 32) (hq : c ≠ '"')
    (hb : c ≠ '\\') (h28 : c.toNat ≠ 0x2028) (h29 : c.toNat ≠ 0x2029) :
    escChar c = [c] := by
  have hn : c ≠ '\n' := by intro h; subst h; exact h32 (by decide)
  have hr : c ≠ '\r' := by intro h; subst h; exact h32 (by decide)
  have ht : c ≠ '\t' := by intro h; subst h; exact h32 (by decide)
  have h7 : ¬((c.toNat = 0x2028 || c.toNat = 0x2029) = true) := by
    simp [h28, h29]
  unfold escChar
  rw [if_neg hq, if_neg hb, if_neg hn, if_neg hr, if_neg ht, if_neg h32, if_neg h7]

/-- `escChar` on a control character other than `\n`, `\r`, `\t`. -/
theorem escChar_ctrl (c : Char) (h32 : c.toNat < 32) (hn : c ≠ '\n')
    (hr : c ≠ '\r') (ht : c ≠ '\t') :
    escChar c = ['\\', 'u', '0', '0', hexDigit (c.toNat / 16), hexDigit (c.toNat % 16)] := by
  have hq : c ≠ '"' := by intro h; subst h; exact absurd h32 (by decide)
  have hb : c ≠ '\\' := by intro h; subst h; exact absurd h32 (by decide)
  unfold escChar
  rw [if_neg hq, if_neg hb, if_neg hn, if_neg hr, if_neg ht, if_pos h32]

/-- `escChar` on U+2028 / U+2029. -/
theorem escChar_sep (c : Char) (h : c.toNat = 0x2028 ∨ c.toNat = 0x2029) :
    escChar c = ['\\', 'u', '2', '0', '2', hexDigit (c.toNat % 16)] := by
  have hq : c ≠ '"' := by
    intro hh; subst hh; rcases h with h | h <;> exact absurd h (by decide)
  have hb : c ≠ '\\' := by
    intro hh; subst hh; rcases h with h | h <;> exact absurd h (by decide)
  have hn : c ≠ '\n' := by
    intro hh; subst hh; rcases h with h | h <;> exact absurd h (by decide)
  have hr : c ≠ '\r' := by
    intro hh; subst hh; rcases h with h | h <;> exact absurd h (by decide)
  have ht : c ≠ '\t' := by
    intro hh; subst hh; rcases h with h | h <;> exact absurd h (by decide)
  have h32 : ¬c.toNat < 32 := by rcases h with h | h <;> omega
  have h7 : (c.toNat = 0x2028 || c.toNat = 0x2029) = true := by
    rcases h with h | h <;> simp [h]
  unfold escChar
  rw [if_neg hq, if_neg hb, if_neg hn, if_neg hr, if_neg ht, if_neg h32, if_pos h7]

/-- `parseQuoted` step on an unescaped character. -/
theorem parseQuoted_plain (c : Char) (l : Bytes) (hq : c ≠ '"') (hb : c ≠ '\\')
    (h32 : ¬c.toNat < 32) :
    parseQuoted (c :: l) = (parseQuoted l).map (fun p => (c :: p.1, p.2)) := by
  simp [parseQuoted, hq, hb, h32]

/-- `parseQuoted` step on a `\uXXXX` escape. -/
theorem parseQuoted_unicode (a b c2 d : Char) (l : Bytes) (x y z w : Nat)
    (ha : hexVal a = some x) (hb : hexVal b = some y) (hc : hexVal c2 = some z)
    (hd : hexVal d = some w) :
    parseQuoted ('\\' :: 'u' :: a :: b :: c2 :: d :: l) =
      (parseQuoted l).map
        (fun p => (Char.ofNat (((x * 16 + y) * 16 + z) * 16 + w) :: p.1, p.2)) := by
  simp [parseQuoted, ha, hb, hc, hd]

/-- `parseQuoted` inverts `escape`: parsing an escaped body followed by the
closing quote yields the original string and the remainder. -/
theorem parseQuoted_escape (s rest : Bytes) :
    parseQuoted (escape s ++ '"' :: rest) = some (s, rest) := by
  induction s with
  | nil =>
    show parseQuoted ('"' :: rest) = some ([], rest)
    rfl
  | cons c s ih =>
    have hesc : escape (c :: s) ++ '"' :: rest
        = escChar c ++ (escape s ++ '"' :: rest) := by
      simp [escape, List.append_assoc]
    rw [hesc]
    by_cases hq : c = '"'
    · subst hq
      rw [show escChar '"' = ['\\', '"'] from by decide]
      simp [parseQuoted, unescChar, ih]
    · by_cases hb : c = '\\'
      · subst hb
        rw [show escChar '\\' = ['\\', '\\'] from by decide]
        simp [parseQuoted, unescChar, ih]
      · by_cases hn : c = '\n'
        · subst hn
          rw [show escChar '\n' = ['\\', 'n'] from by decide]
          simp [parseQuoted, unescChar, ih]
        · by_cases hrr : c = '\r'
          · subst hrr
            rw [show escChar '\r' = ['\\', 'r'] from by decide]
            simp [parseQuoted, unescChar, ih]
          · by_cases ht : c = '\t'
            · subst ht
              rw [show escChar '\t' = ['\\', 't'] from by decide]
              simp [parseQuoted, unescChar, ih]
            · by_cases h32 : c.toNat < 32
              · rw [escChar_ctrl c h32 hn hrr ht]
                have hdiv : c.toNat / 16 < 16 := by omega
                have hmod : c.toNat % 16 < 16 := by omega
                rw [show ['\\', 'u', '0', '0', hexDigit (c.toNat / 16),
                    hexDigit (c.toNat % 16)] ++ (escape s ++ '"' :: rest)
                    = '\\' :: 'u' :: '0' :: '0' :: hexDigit (c.toNat / 16)
                      :: hexDigit (c.toNat % 16) :: (escape s ++ '"' :: rest)
                  from rfl]
                rw [parseQuoted_unicode _ _ _ _ _ 0 0 (c.toNat / 16) (c.toNat % 16)
                  (by decide) (by decide) (hexVal_hexDigit _ hdiv)
                  (hexVal_hexDigit _ hmod)]
                rw [ih]
                have hval : ((0 * 16 + 0) * 16 + c.toNat / 16) * 16 + c.toNat % 16
                    = c.toNat := by omega
                simp only [Option.map_some']
                rw [hval, Char.ofNat_toNat]
              · by_cases h28 : c.toNat = 0x2028 ∨ c.toNat = 0x2029
                · rw [escChar_sep c h28]
                  have hmod : c.toNat % 16 < 16 := by omega
                  rw [show ['\\', 'u', '2', '0', '2', hexDigit (c.toNat % 16)]
                      ++ (escape s ++ '"' :: rest)
                      = '\\' :: 'u' :: '2' :: '0' :: '2'
                        :: hexDigit (c.toNat % 16) :: (escape s ++ '"' :: rest)
                    from rfl]
                  rw [parseQuoted_unicode _ _ _ _ _ 2 0 2 (c.toNat % 16)
                    (by decide) (by decide) (by decide) (hexVal_hexDigit _ hmod)]
                  rw [ih]
                  have hval : ((2 * 16 + 0) * 16 + 2) * 16 + c.toNat % 16
                      = c.toNat := by rcases h28 with h | h <;> omega
                  simp only [Option.map_some']
                  rw [hval, Char.ofNat_toNat]
                · push_neg at h28
                  rw [escChar_plain c h32 hq hb h28.1 h28.2]
                  rw [show [c] ++ (escape s ++ '"' :: rest)
                      = c :: (escape s ++ '"' :: rest) from rfl]
                  rw [parseQuoted_plain c _ hq hb h32, ih]
                  rfl

/-! ### Member-list parsing lemmas -/

/-- `skipWS` leaves a non-whitespace head in place. -/
theorem skipWS_cons_not (c : Char) (l : Bytes) (h : isWS c = false) :
    skipWS (c :: l) = c :: l := by simp [skipWS, List.dropWhile_cons, h]

/-- `skipWS` drops a whitespace head. -/
theorem skipWS_cons_ws (c : Char) (l : Bytes) (h : isWS c = true) :
    skipWS (c :: l) = skipWS l := by simp [skipWS, List.dropWhile_cons, h]

/-- `skipWS` is idempotent. -/
theorem skipWS_idem (l : Bytes) : skipWS (skipWS l) = skipWS l := by
  induction l with
  | nil => rfl
  | cons c l ih =>
    cases h : isWS c with
    | true => rw [skipWS_cons_ws c l h]; exact ih
    | false => rw [skipWS_cons_not c l h, skipWS_cons_not c l h]

/-- `parseFields` only looks at its input through `skipWS`. -/
theorem parseFields_skipWS (f : Nat) (s : Bytes) :
    parseFields (f + 1) s = parseFields (f + 1) (skipWS s) := by
  simp only [parseFields]
  rw [skipWS_idem]

/-- Parsing one rendered member consumes it and dispatches on the next
delimiter. -/
theorem parseFields_field (f : Nat) (kv : Bytes × Bytes) (tail : Bytes) :
    parseFields (f + 1) (renderField kv ++ tail) =
      (match skipWS tail with
       | ',' :: r5 =>
         (match parseFields f r5 with
          | some (flds, r6) => some (kv :: flds, r6)
          | none => none)
       | '\x7d' :: r5 => some ([kv], r5)
       | _ => none) := by
  obtain ⟨k, v⟩ := kv
  have h1 : renderField (k, v) ++ tail
      = '"' :: (escape k ++ '"' :: (':' :: (' ' :: ('"' :: (escape v ++ '"' :: tail))))) := by
    simp [renderField]
  rw [h1]
  simp only [parseFields]
  rw [skipWS_cons_not '"' _ (by decide)]
  simp [skipWS_cons_not, skipWS_cons_ws, parseQuoted_escape, isWS]

/-- A rendered member list starts with a quote. -/
theorem sepJoin_cons_head (kv : Bytes × Bytes) (l : List (Bytes × Bytes)) :
    ∃ t, sepJoin (kv :: l) = '"' :: t := by
  cases l with
  | nil => exact ⟨_, rfl⟩
  | cons kv2 l2 => exact ⟨_, rfl⟩

/-- `sepJoin` on two or more members. -/
theorem sepJoin_cons_cons (kv kv2 : Bytes × Bytes) (l : List (Bytes × Bytes)) :
    sepJoin (kv :: kv2 :: l)
      = renderField kv ++ ',' :: '\n' :: ' ' :: sepJoin (kv2 :: l) := rfl

/-- `skipWS` does not move past the start of a rendered member list. -/
theorem skipWS_sepJoin_append (kv : Bytes × Bytes) (l : List (Bytes × Bytes))
    (z : Bytes) : skipWS (sepJoin (kv :: l) ++ z) = sepJoin (kv :: l) ++ z := by
  obtain ⟨t, ht⟩ := sepJoin_cons_head kv l
  rw [ht, List.cons_append, skipWS_cons_not '"' _ (by decide)]

/-- Parsing a rendered member list followed by the closing newline and brace
returns exactly those members and the remainder. -/
theorem parseFields_sepJoin (flds : List (Bytes × Bytes)) (rest : Bytes) :
    ∀ f, flds.length < f → flds ≠ [] →
      parseFields f (sepJoin flds ++ '\n' :: '\x7d' :: rest) = some (flds, rest) := by
  induction flds with
  | nil => intro f _ h; exact absurd rfl h
  | cons kv flds ih =>
    intro f hf _
    obtain ⟨f, rfl⟩ : ∃ g, f = g + 1 := ⟨f - 1, by omega⟩
    cases flds with
    | nil =>
      rw [show sepJoin [kv] = renderField kv from rfl]
      rw [parseFields_field]
      rw [skipWS_cons_ws '\n' _ (by decide), skipWS_cons_not '\x7d' _ (by decide)]
      simp
    | cons kv2 flds2 =>
      have hlen : (kv :: kv2 :: flds2).length < f + 1 := hf
      simp only [List.length_cons] at hlen
      obtain ⟨g, rfl⟩ : ∃ g, f = g + 1 := ⟨f - 1, by omega⟩
      have hrec : parseFields (g + 1)
          ('\n' :: ' ' :: (sepJoin (kv2 :: flds2) ++ '\n' :: '\x7d' :: rest))
          = some (kv2 :: flds2, rest) := by
        rw [parseFields_skipWS, skipWS_cons_ws '\n' _ (by decide),
          skipWS_cons_ws ' ' _ (by decide), skipWS_sepJoin_append]
        exact ih (g + 1) (by simp only [List.length_cons]; omega) (by simp)
      rw [sepJoin_cons_cons, List.append_assoc]
      simp only [List.cons_append]
      rw [parseFields_field]
      rw [skipWS_cons_not ',' _ (by decide)]
      simp [hrec]

/-! ### Encode layout lemmas -/

/-- `setNth` overwrites the byte right after a prefix. -/
theorem setNth_append (pre t : Bytes) (c c' : Char) :
    setNth (pre ++ c :: t) pre.length c' = pre ++ c' :: t := by
  induction pre with
  | nil => rfl
  | cons h pre ih => simp [setNth, ih]

/-- The encoder output laid out from the magic onward: the type name in
quotes, the comma overwriting the body's `{`, and the indented members. -/
theorem encode_eq (o : Object) :
    Encode o = magic ++ ' ' :: '"' :: (TypeOf o ++ '"' :: ',' :: '\n' :: ' '
      :: (sepJoin (marshalFields o) ++ '\n' :: '\x7d' :: '\n' :: [])) := by
  unfold Encode
  have hbody : jsonEncode (marshalFields o)
      = '\x7b' :: ('\n' :: ' ' :: (sepJoin (marshalFields o)
        ++ '\n' :: '\x7d' :: '\n' :: [])) := by
    cases o <;> rfl
  rw [hbody, setNth_append]
  simp [List.append_assoc]

/-- The first `MagicSize` bytes of every encoded blob are the magic. -/
theorem encode_take_magic (o : Object) : (Encode o).take MagicSize = magic := by
  rw [encode_eq]
  show (magic ++ _).take magic.length = magic
  rw [List.take_left]

/-- Encoded blobs extend beyond the magic. -/
theorem encode_length_lower (o : Object) :
    MagicSize + 2 ≤ (Encode o).length := by
  rw [encode_eq]
  simp only [List.length_append, List.length_cons, MagicSize]
  omega

/-- The encoded blob, regrouped as one JSON object whose first member is the
`@type` header: this is what the decoder's JSON parser sees. -/
theorem encode_eq_fields (o : Object) :
    Encode o = '\x7b' :: ('\n' :: ' '
      :: (sepJoin ((typeField, TypeOf o) :: marshalFields o)
        ++ '\n' :: '\x7d' :: '\n' :: [])) := by
  rw [encode_eq]
  have hmagic : magic = '\x7b' :: '\n' :: ' ' :: '"' :: (typeField ++ ['"', ':']) := by
    decide
  cases o with
  | transformOp a b c =>
    simp only [TypeOf, typeToName, marshalFields, sepJoin, renderField]
    rw [hmagic,
      show escape typeField = typeField from by decide,
      show escape ("cas:TransformOp".toList) = "cas:TransformOp".toList from by decide,
      show escape ("src".toList) = "src".toList from by decide,
      show escape ("op".toList) = "op".toList from by decide,
      show escape ("dst".toList) = "dst".toList from by decide]
    simp [List.append_assoc]
  | pin id =>
    simp only [TypeOf, typeToName, marshalFields, sepJoin, renderField]
    rw [hmagic,
      show escape typeField = typeField from by decide,
      show escape ("cas:Pin".toList) = "cas:Pin".toList from by decide,
      show escape ("id".toList) = "id".toList from by decide]
    simp [List.append_assoc]

/-- Each rendered member contributes at least one byte. -/
theorem sepJoin_length_ge (l : List (Bytes × Bytes)) :
    l.length ≤ (sepJoin l).length := by
  induction l with
  | nil => simp [sepJoin]
  | cons kv l ih =>
    cases l with
    | nil =>
      have h1 : sepJoin [kv] = renderField kv := rfl
      rw [h1]
      simp only [renderField, List.length_cons, List.length_append,
        List.length_nil]
      omega
    | cons kv2 l2 =>
      rw [sepJoin_cons_cons]
      simp only [renderField, List.length_cons, List.length_append,
        List.length_nil] at ih ⊢
      omega

/-- `json.Unmarshal` on an encoded blob recovers the `@type` header member
followed by the object's members. -/
theorem unmarshal_encode (o : Object) :
    unmarshalFields (Encode o)
      = .ok ((typeField, TypeOf o) :: marshalFields o) := by
  obtain ⟨t, ht⟩ := sepJoin_cons_head (typeField, TypeOf o) (marshalFields o)
  have hle : ((typeField, TypeOf o) :: marshalFields o).length ≤ t.length + 1 := by
    have hs := sepJoin_length_ge ((typeField, TypeOf o) :: marshalFields o)
    rw [ht] at hs
    simpa using hs
  have hchainR : ∀ g, ((typeField, TypeOf o) :: marshalFields o).length < g + 1 →
      parseFields (g + 1) ('\n' :: ' ' :: '"' :: (t ++ ['\n', '\x7d', '\n']))
        = some ((typeField, TypeOf o) :: marshalFields o, ['\n']) := by
    intro g hg
    rw [parseFields_skipWS, skipWS_cons_ws '\n' _ (by decide),
      skipWS_cons_ws ' ' _ (by decide), skipWS_cons_not '"' _ (by decide)]
    rw [show ('"' : Char) :: (t ++ ['\n', '\x7d', '\n'])
        = sepJoin ((typeField, TypeOf o) :: marshalFields o)
          ++ '\n' :: '\x7d' :: '\n' :: [] from by rw [ht]; simp]
    exact parseFields_sepJoin _ _ _ (by omega) (by simp)
  have hx : ∀ g, ((typeField, TypeOf o) :: marshalFields o).length < g + 1 →
      (match parseFields (g + 1) ('\n' :: ' ' :: '"' :: (t ++ ['\n', '\x7d', '\n'])) with
       | some (flds, rest) =>
         if skipWS rest = [] then Except.ok flds else Except.error Err.parseErr
       | none => (Except.error Err.parseErr : Except Err (List (Bytes × Bytes))))
      = Except.ok ((typeField, TypeOf o) :: marshalFields o) := by
    intro g hg
    rw [hchainR g hg]
    simp [show skipWS ['\n'] = [] from by decide]
  unfold unmarshalFields parseTopObj
  rw [encode_eq_fields, ht]
  simp only [List.cons_append]
  simp [skipWS_cons_ws, skipWS_cons_not, isWS]
  exact hx _ (by omega)

/-- Decoding the canonical text of a ref recovers the ref. -/
theorem refOfText_val (r : Types.Ref) : refOfText r.val = .ok r := by
  unfold refOfText
  rw [dif_pos r.property]

/-- `decodeType` on an encoded blob under the cap extracts the type name and
returns the whole blob as the drained data. -/
theorem decodeType_encode (o : Object) (h : (Encode o).length < maxSize) :
    decodeType (Encode o) = (.ok (TypeOf o, Encode o), (Encode o).drop maxSize) := by
  have hdata : (Encode o).take maxSize = Encode o :=
    List.take_of_length_le (le_of_lt h)
  have hl : lookupLast ((typeField, TypeOf o) :: marshalFields o) typeField
      = some (TypeOf o) := by cases o <;> rfl
  unfold decodeType
  rw [hdata, if_neg (by omega), unmarshal_encode o]
  simp [hl]

/-- `decode` inverts `Encode` on blobs under the cap. -/
theorem decode_encode (o : Object) (h : (Encode o).length < maxSize) :
    decode (Encode o) = .ok o := by
  have hdt := decodeType_encode o h
  unfold decode
  rw [hdt]
  cases o with
  | transformOp a b c =>
    have hum := unmarshal_encode (Object.transformOp a b c)
    have hnew : NewType ['c', 'a', 's', ':', 'T', 'r', 'a', 'n', 's', 'f', 'o',
        'r', 'm', 'O', 'p'] = .ok ObjShape.transformOp := rfl
    have hsrc : lookupLast
        [(typeField, (['c', 'a', 's', ':', 'T', 'r', 'a', 'n', 's', 'f', 'o',
            'r', 'm', 'O', 'p'] : Bytes)),
          ((['s', 'r', 'c'] : Bytes), a.val), ((['o', 'p'] : Bytes), b.val),
          ((['d', 's', 't'] : Bytes), c.val)] ['s', 'r', 'c'] = some a.val := rfl
    have hop : lookupLast
        [(typeField, (['c', 'a', 's', ':', 'T', 'r', 'a', 'n', 's', 'f', 'o',
            'r', 'm', 'O', 'p'] : Bytes)),
          ((['s', 'r', 'c'] : Bytes), a.val), ((['o', 'p'] : Bytes), b.val),
          ((['d', 's', 't'] : Bytes), c.val)] ['o', 'p'] = some b.val := rfl
    have hdst : lookupLast
        [(typeField, (['c', 'a', 's', ':', 'T', 'r', 'a', 'n', 's', 'f', 'o',
            'r', 'm', 'O', 'p'] : Bytes)),
          ((['s', 'r', 'c'] : Bytes), a.val), ((['o', 'p'] : Bytes), b.val),
          ((['d', 's', 't'] : Bytes), c.val)] ['d', 's', 't'] = some c.val := rfl
    simp [hum, hnew, hsrc, hop, hdst, objFromFields, refOfText_val, TypeOf,
      typeToName, marshalFields]
  | pin id =>
    have hum := unmarshal_encode (Object.pin id)
    have hnew : NewType ['c', 'a', 's', ':', 'P', 'i', 'n']
        = .ok ObjShape.pin := rfl
    have hid : lookupLast
        [(typeField, (['c', 'a', 's', ':', 'P', 'i', 'n'] : Bytes)),
          ((['i', 'd'] : Bytes), id)] ['i', 'd'] = some id := rfl
    simp [hum, hnew, hid, objFromFields, TypeOf, typeToName, marshalFields]

/-- C3 amended: for every object of the embedded registry whose encoding is
below the 16 MiB cap, `Decode (Encode o)` succeeds and returns a value equal
to `o`.  (The cap hypothesis is forced: a registered object with a large
enough string field encodes to `maxSize` bytes or more and `Decode` then fails
with the "too large" error — see the counterexample.) -/
theorem decode_encode_roundtrip (o : Schema.Object)
    (h : (Schema.Encode o).length < Schema.maxSize) :
    Schema.Decode (Schema.Encode o) = .ok o := by
  have hcs : checkSchema (Encode o) = .ok (Encode o) := by
    apply checkSchema_good
    · exact encode_take_magic o
    · have := encode_length_lower o
      omega
  unfold Decode
  rw [hcs]
  show DecodeJSON (Encode o) = .ok o
  unfold DecodeJSON
  exact decode_encode o h

/-- Witness for the amended C3 at a concrete pin. -/
theorem decode_encode_roundtrip_witness :
    Schema.Decode (Schema.Encode pinX) = .ok pinX :=
  decode_encode_roundtrip pinX (by decide)

/-- The encoding of a pin is at least as long as its escaped `id`. -/
theorem encode_pin_length_ge (id : Bytes) :
    (escape id).length ≤ (Encode (Object.pin id)).length := by
  rw [encode_eq]
  rw [show marshalFields (Object.pin id) = [("id".toList, id)] from rfl]
  rw [show sepJoin [("id".toList, id)] = renderField ("id".toList, id) from rfl]
  simp only [renderField, List.length_append, List.length_cons, List.length_nil]
  omega

/-- C3 counterexample: a registered pin whose `id` is 16 MiB of `'a'` encodes
to a blob at the cap, and `Decode (Encode bigPin)` fails with the "too large"
error instead of round-tripping. -/
theorem decode_encode_cap_cex :
    Schema.Decode (Schema.Encode bigPin) = .error .tooLarge ∧
    Schema.Decode (Schema.Encode bigPin) ≠ .ok bigPin := by
  have hesc : ∀ n, escape (List.replicate n 'a') = List.replicate n 'a' := by
    intro n
    induction n with
    | zero => rfl
    | succ n ih =>
      rw [List.replicate_succ]
      rw [show escape ('a' :: List.replicate n 'a')
          = escChar 'a' ++ escape (List.replicate n 'a') from by simp [escape]]
      rw [show escChar 'a' = ['a'] from by decide, ih]
      rfl
  have hlen : maxSize ≤ (Encode bigPin).length := by
    have h1 := encode_pin_length_ge (List.replicate maxSize 'a')
    rw [hesc maxSize, List.length_replicate] at h1
    exact h1
  have hD : Decode (Encode bigPin) = .error .tooLarge :=
    decode_tooLarge_of_cap (Encode bigPin) (encode_take_magic bigPin) hlen
  exact ⟨hD, fun h => Except.noConfusion (hD ▸ h)⟩

/-- C4 counterexample: on a stream with a valid magic but an invalid JSON
body, `PeekType` consumes the whole stream and returns a reader that replays
nothing, so a subsequent `Decode` reports `NotSchema` while `Decode` on the
original stream reports a parse error. -/
theorem peektype_dropped_bytes_cex :
    (Schema.PeekType badBody).reader = some [] ∧
    Schema.Decode [] ≠ Schema.Decode badBody := by decide

/-- C4 amended: whenever `PeekType` succeeds (`err = nil`), the returned
reader replays the complete stream, so a full `Decode` on it behaves exactly
like `Decode` on the original; when `PeekType` fails the consumed bytes are
not replayed (nil reader on a magic failure, an empty replay on a body
parse/size failure). -/
theorem peektype_ok_replays (r : Bytes) (h : (Schema.PeekType r).err = none) :
    (Schema.PeekType r).reader = some r ∧
    ∀ rd, (Schema.PeekType r).reader = some rd →
      Schema.Decode rd = Schema.Decode r := by
  have hmain : (Schema.PeekType r).reader = some r := by
    unfold PeekType at h ⊢
    cases hcs : checkSchema r with
    | error e =>
      rw [hcs] at h
      simp at h
    | ok r2 =>
      have hr2 : r = r2 := by
        unfold checkSchema at hcs
        split_ifs at hcs
        all_goals
          first
          | exact hcs
          | exact Except.ok.inj hcs
      subst hr2
      simp only [hcs] at h ⊢
      rcases hdt : decodeType r with ⟨res, left⟩
      simp only [hdt] at h ⊢
      cases res with
      | error e => simp at h
      | ok td =>
        obtain ⟨typ, data⟩ := td
        have hda : data = r.take maxSize ∧ left = r.drop maxSize ∧
            (r.take maxSize).length ≠ maxSize := by
          unfold decodeType at hdt
          split_ifs at hdt with hc
          · simp at hdt
          · cases hum : unmarshalFields (r.take maxSize) with
            | error e =>
              rw [hum] at hdt
              simp at hdt
            | ok flds =>
              rw [hum] at hdt
              simp at hdt
              exact ⟨hdt.1.2.symm, hdt.2.symm, hc⟩
        have hlt : r.length < maxSize := by
          rcases hda with ⟨_, _, hc⟩
          rw [List.length_take] at hc
          omega
        rcases hda with ⟨h1, h2, _⟩
        subst h1
        subst h2
        simp [List.take_of_length_le (le_of_lt hlt),
          List.drop_eq_nil_of_le (le_of_lt hlt)]
  refine ⟨hmain, ?_⟩
  intro rd hrd
  rw [hmain] at hrd
  cases hrd
  rfl

/-- Witness for the amended C4 at a concrete encoded pin. -/
theorem peektype_ok_replays_witness :
    (Schema.PeekType (Schema.Encode pinX)).reader = some (Schema.Encode pinX) ∧
    ∀ rd, (Schema.PeekType (Schema.Encode pinX)).reader = some rd →
      Schema.Decode rd = Schema.Decode (Schema.Encode pinX) :=
  peektype_ok_replays (Schema.Encode pinX) (by decide)

/-- C5 counterexample: in an encoded blob the byte at offset `MagicSize` is a
space, the opening quote of the `@type` value sits at offset `MagicSize + 1`,
so the bytes preceding that quote are `MagicSize + 1` long — not the first
`MagicSize` bytes as the claim states. -/
theorem magicsize_off_by_one_cex :
    (Schema.Encode pinX)[Schema.MagicSize]? = some ' ' ∧
    (Schema.Encode pinX)[Schema.MagicSize + 1]? = some '"' ∧
    (Schema.Encode pinX).take (Schema.MagicSize + 1)
      ≠ (Schema.Encode pinX).take Schema.MagicSize := by decide

/-- C5 amended: `MagicSize` is the byte length of the magic template up
through the colon after the `@type` key; every encoded blob then carries one
space and only then the opening quote of the type name's value, so the bytes
preceding that quote are the first `MagicSize + 1` bytes (`magic` plus a
space), not the first `MagicSize` bytes. -/
theorem encode_magic_layout (o : Schema.Object) :
    (Schema.Encode o).take Schema.MagicSize = Schema.magic ∧
    (Schema.Encode o).take (Schema.MagicSize + 1) = Schema.magic ++ [' '] ∧
    (Schema.Encode o)[Schema.MagicSize + 1]? = some '"' := by
  refine ⟨encode_take_magic o, ?_, ?_⟩
  · rw [encode_eq]
    show (magic ++ (' ' :: '"' :: _)).take (magic.length + 1) = magic ++ [' ']
    rw [List.take_append]
    rfl
  · rw [encode_eq]
    show (magic ++ (' ' :: '"' :: _))[magic.length + 1]? = some '"'
    rw [List.getElem?_append_right (by omega)]
    simp
